import Mathlib

/-!
Verification of the 2D heat-equation miniapp (stdpar / senders variants).

The floating-point type `Real_t` (double) is modelled by `ℚ`; `std::exp`
is modelled by an abstract parameter `expf : ℚ → ℚ` (the program only ever
feeds its result through further arithmetic, and no claim depends on the
analytic properties of the exponential).  Buffers are modelled as total
functions `ℕ → ℚ` over flat row-major indices, exactly as the C++ code
addresses them through `mdspan` with `layout_right`.  Parallel
`for_each_n` / OpenMP loops are embedded in their sequential ascending
iteration order.
-/

namespace HeatEq

/-- Tile start offset, from the bulk lambdas of the tiled variant:
`int start = tile * (ncells * ncells) / ntiles;` — note that in C++ this
parses as `(tile * total) / ntiles`. -/
def tileStart (total T t : ℕ) : ℕ := t * total / T

/-- Tile length, from the bulk lambdas of the tiled variant:
`int size = (ncells*ncells) / ntiles; int remaining = (ncells*ncells) % ntiles;
size += (tile == ntiles - 1) ? remaining : 0;`. -/
def tileSize (total T t : ℕ) : ℕ :=
  total / T + (if t = T - 1 then total % T else 0)

/-- The whole ordered tile sequence (start, length) produced by the partition
formulas of the code for `tile = 0 .. ntiles-1`. -/
def partitionTiles (total T : ℕ) : List (ℕ × ℕ) :=
  (List.range T).map (fun t => (tileStart total T t, tileSize total T t))

/-- Start index as the spec words it (§4.4): `start = t·base` with
`base = total / tile_count`.  Kept separately, only to compare with the
`tileStart` of the code. -/
def tileStartSpec (total T t : ℕ) : ℕ := t * (total / T)

/-- Flat row-major index into the haloed `phi_old` buffer of side
`ncells + nghosts` (`nghosts = ghost_cells * dims = 2`):
`phi_old(i, j) = grid_old[i * (n+2) + j]`. -/
def oldIdx (n i j : ℕ) : ℕ := i * (n + 2) + j

/-- Flat index written into `phi_new` by an iteration at position `p`:
the code computes `i = 1 + p / n`, `j = 1 + p % n` and writes
`phi_new(i-1, j-1)`, i.e. flat index `(i-1)*n + (j-1)`. -/
def newIdx (n p : ℕ) : ℕ :=
  (1 + p / n - 1) * n + (1 + p % n - 1)

/-- Value written by one Jacobi stencil iteration at position `p`
(the `for_each_n` lambda of the stencil update):
`phi_new(i-1,j-1) = phi_old(i,j) + alpha*dt*((phi_old(i+1,j) - 2*phi_old(i,j)
 + phi_old(i-1,j))/(dx0*dx0) + (phi_old(i,j+1) - 2*phi_old(i,j) +
 phi_old(i,j-1))/(dx1*dx1))`. -/
def stencilVal (n : ℕ) (alpha dt dx0 dx1 : ℚ) (phiOld : ℕ → ℚ) (p : ℕ) : ℚ :=
  let i := 1 + p / n
  let j := 1 + p % n
  phiOld (oldIdx n i j) +
    alpha * dt *
      ((phiOld (oldIdx n (i + 1) j) - 2 * phiOld (oldIdx n i j) +
          phiOld (oldIdx n (i - 1) j)) / (dx0 * dx0) +
        (phiOld (oldIdx n i (j + 1)) - 2 * phiOld (oldIdx n i j) +
          phiOld (oldIdx n i (j - 1))) / (dx1 * dx1))

/-- Sequentialized `for_each_n(counting_iterator(start), size, body)` where
the body performs one store `buf[f k] = v k` whose value does not read the
buffer being written (the stencil, copy-back and init loops all read only
the *other* buffer). -/
def updFold (f : ℕ → ℕ) (v : ℕ → ℚ) (m : ℕ) (g : ℕ → ℚ) : ℕ → ℚ :=
  (List.range m).foldl (fun acc k => Function.update acc (f k) (v k)) g

/-- One stencil pass over positions `[start, start+size)`: for each `p` it
stores `stencilVal … p` at `newIdx n p` into `phi_new`, reading only
`phi_old`. -/
def stencilRange (n : ℕ) (alpha dt dx0 dx1 : ℚ) (phiOld phiNew : ℕ → ℚ)
    (start size : ℕ) : ℕ → ℚ :=
  updFold (fun k => newIdx n (start + k))
    (fun k => stencilVal n alpha dt dx0 dx1 phiOld (start + k)) size phiNew

/-- The tiled stencil phase (`bulk(ntiles, …)` of the tiled variant):
tile `t` covers `[tileStart, tileStart + tileSize)` of the flattened
iteration space `total = ncells * ncells`. -/
def stencilTiled (n T : ℕ) (alpha dt dx0 dx1 : ℚ)
    (phiOld phiNew : ℕ → ℚ) : ℕ → ℚ :=
  (List.range T).foldl
    (fun acc t =>
      stencilRange n alpha dt dx0 dx1 phiOld acc
        (tileStart (n * n) T t) (tileSize (n * n) T t)) phiNew

/-- The untiled stencil phase of `heat-equation-stdpar.cpp`:
`for_each_n(counting_iterator(0), ncells*ncells, …)`. -/
def stencilFull (n : ℕ) (alpha dt dx0 dx1 : ℚ)
    (phiOld phiNew : ℕ → ℚ) : ℕ → ℚ :=
  stencilRange n alpha dt dx0 dx1 phiOld phiNew 0 (n * n)

/-- One copy-back pass over positions `[start, start+size)`:
`phi_old(i, j) = phi_new(i-1, j-1)` with `i = 1 + p / n`, `j = 1 + p % n`. -/
def copyRange (n : ℕ) (phiNew phiOld : ℕ → ℚ) (start size : ℕ) : ℕ → ℚ :=
  updFold (fun k => oldIdx n (1 + (start + k) / n) (1 + (start + k) % n))
    (fun k => phiNew (newIdx n (start + k))) size phiOld

/-- The tiled copy-back phase of the tiled variant. -/
def copyTiled (n T : ℕ) (phiNew phiOld : ℕ → ℚ) : ℕ → ℚ :=
  (List.range T).foldl
    (fun acc t =>
      copyRange n phiNew acc (tileStart (n * n) T t) (tileSize (n * n) T t))
    phiOld

/-- The untiled copy-back phase of `heat-equation-stdpar.cpp`. -/
def copyFull (n : ℕ) (phiNew phiOld : ℕ → ℚ) : ℕ → ℚ :=
  copyRange n phiNew phiOld 0 (n * n)

/-- The stencil bulk dispatch over an explicit list of `(start, length)`
tiles; `stencilTiled` is this applied to `partitionTiles`. -/
def stencilOver (n : ℕ) (alpha dt dx0 dx1 : ℚ) (phiOld : ℕ → ℚ)
    (tiles : List (ℕ × ℕ)) (phiNew : ℕ → ℚ) : ℕ → ℚ :=
  tiles.foldl
    (fun acc ts => stencilRange n alpha dt dx0 dx1 phiOld acc ts.1 ts.2) phiNew

/-- The copy-back bulk dispatch over an explicit list of `(start, length)`
tiles; `copyTiled` is this applied to `partitionTiles`. -/
def copyOver (n : ℕ) (phiNew : ℕ → ℚ) (tiles : List (ℕ × ℕ))
    (phiOld : ℕ → ℚ) : ℕ → ℚ :=
  tiles.foldl (fun acc ts => copyRange n phiNew acc ts.1 ts.2) phiOld

/-- Body of the first (row) pass of `fill2Dboundaries`, iteration index
`i = ghost_cells + k`:
`grid[i] = grid[i + ghost_cells*len];`
`grid[i + len*(len-ghost_cells)] = grid[i + len*(len-ghost_cells-1)];`
Sources are read from the buffer in its current state. -/
def fillBody1 (len g : ℕ) (acc : ℕ → ℚ) (k : ℕ) : ℕ → ℚ :=
  let i := g + k
  let a1 := Function.update acc i (acc (i + g * len))
  Function.update a1 (i + len * (len - g)) (a1 (i + len * (len - g - 1)))

/-- Body of the second (column) pass of `fill2Dboundaries`, iteration index
`j = ghost_cells + k`:
`grid[j*len] = grid[ghost_cells*len + j];`
`grid[(len-ghost_cells) + len*j] = grid[(len-ghost_cells-1) + len*j];`. -/
def fillBody2 (len g : ℕ) (acc : ℕ → ℚ) (k : ℕ) : ℕ → ℚ :=
  let j := g + k
  let a1 := Function.update acc (j * len) (acc (g * len + j))
  Function.update a1 ((len - g) + len * j) (a1 ((len - g - 1) + len * j))

/-- First `m` iterations of the row pass of `fill2Dboundaries`. -/
def fillPass1 (len g m : ℕ) (grid : ℕ → ℚ) : ℕ → ℚ :=
  (List.range m).foldl (fillBody1 len g) grid

/-- First `m` iterations of the column pass of `fill2Dboundaries`. -/
def fillPass2 (len g m : ℕ) (grid : ℕ → ℚ) : ℕ → ℚ :=
  (List.range m).foldl (fillBody2 len g) grid

/-- `fill2Dboundaries` of `heat-equation-stdpar-senders.cpp` (also used by
the tiled variant), sequentialized in ascending order: two passes of
`for_each_n(counting_iterator(ghost_cells), len - ghost_cells, …)`. -/
def fill2Dboundaries (len g : ℕ) (grid : ℕ → ℚ) : ℕ → ℚ :=
  fillPass2 len g (len - g) (fillPass1 len g (len - g) grid)

/-- Body of `fill2Dboundaries_omp` (OpenMP variant), iteration index
`i = ghost_cells + k`, four stores per iteration. -/
def fillBodyOmp (len g : ℕ) (acc : ℕ → ℚ) (k : ℕ) : ℕ → ℚ :=
  let i := g + k
  let a1 := Function.update acc i (acc (i + g * len))
  let a2 :=
    Function.update a1 (i + len * (len - g)) (a1 (i + len * (len - g - 1)))
  let a3 := Function.update a2 (i * len) (a2 (g * len + i))
  Function.update a3 ((len - g) + len * i) (a3 ((len - g - 1) + len * i))

/-- `fill2Dboundaries_omp`, sequentialized:
`for (i = ghost_cells; i < len - ghost_cells; i++)`. -/
def fill2Dboundaries_omp (len g : ℕ) (grid : ℕ → ℚ) : ℕ → ℚ :=
  (List.range (len - g - g)).foldl (fillBodyOmp len g) grid

/-- Value stored by one iteration of the initialization loop:
`x = -0.5 + dx0*(i - ghost_cells)`, `y = -0.5 + dx1*(j - ghost_cells)`
(the `pos` preprocessor definition with `ghost_cells = 1`), `r2 = (x*x + y*y)/0.01`,
`phi_old(i, j) = 1 + exp(-r2)`. -/
def initVal (n : ℕ) (dx0 dx1 : ℚ) (expf : ℚ → ℚ) (p : ℕ) : ℚ :=
  let i := 1 + p / n
  let j := 1 + p % n
  let x : ℚ := -(1 / 2) + dx0 * ((i : ℚ) - 1)
  let y : ℚ := -(1 / 2) + dx1 * ((j : ℚ) - 1)
  let r2 : ℚ := (x * x + y * y) / (1 / 100)
  1 + expf (-r2)

/-- The initialization phase of `heat-equation-stdpar.cpp`
(`for_each_n(counting_iterator(0), ncells*ncells, …)` writing
`phi_old(1 + p/n, 1 + p%n)`), applied to the allocation-time contents
`phiOld` of `grid_old`. -/
def heatInit (n : ℕ) (dx0 dx1 : ℚ) (expf : ℚ → ℚ) (phiOld : ℕ → ℚ) : ℕ → ℚ :=
  updFold (fun p => oldIdx n (1 + p / n) (1 + p % n))
    (initVal n dx0 dx1 expf) (n * n) phiOld

/-- One time step of `heat-equation-stdpar.cpp`: boundary fill on the
haloed buffer, stencil update into `phi_new`, copy-back into `phi_old`. -/
def stepStdpar (n : ℕ) (alpha dt dx0 dx1 : ℚ)
    (s : (ℕ → ℚ) × (ℕ → ℚ)) : (ℕ → ℚ) × (ℕ → ℚ) :=
  let old1 := fill2Dboundaries (n + 2) 1 s.1
  let new1 := stencilFull n alpha dt dx0 dx1 old1 s.2
  let old2 := copyFull n new1 old1
  (old2, new1)

/-- One time step of the tiled variant: the same boundary fill, then the
tiled stencil and tiled copy-back. -/
def stepTiled (n T : ℕ) (alpha dt dx0 dx1 : ℚ)
    (s : (ℕ → ℚ) × (ℕ → ℚ)) : (ℕ → ℚ) × (ℕ → ℚ) :=
  let old1 := fill2Dboundaries (n + 2) 1 s.1
  let new1 := stencilTiled n T alpha dt dx0 dx1 old1 s.2
  let old2 := copyTiled n T new1 old1
  (old2, new1)

/-- The `for (step = 0; step < nsteps; step++)` loop of the tiled variant. -/
def evolve (n T : ℕ) (alpha dt dx0 dx1 : ℚ) :
    ℕ → (ℕ → ℚ) × (ℕ → ℚ) → (ℕ → ℚ) × (ℕ → ℚ)
  | 0, s => s
  | k + 1, s => evolve n T alpha dt dx0 dx1 k (stepTiled n T alpha dt dx0 dx1 s)

/-- The `for (step = 0; step < nsteps; step++)` loop of
`heat-equation-stdpar.cpp`. -/
def loopStdpar (n : ℕ) (alpha dt dx0 dx1 : ℚ) :
    ℕ → (ℕ → ℚ) × (ℕ → ℚ) → (ℕ → ℚ) × (ℕ → ℚ)
  | 0, s => s
  | k + 1, s => loopStdpar n alpha dt dx0 dx1 k (stepStdpar n alpha dt dx0 dx1 s)

/-- Whole run of `heat-equation-stdpar.cpp` after argument parsing:
allocate (contents `gOld0`, `gNew0` — raw `new[]`, so whatever was there),
initialize the interior of `phi_old`, run `nsteps` steps.  The final
`printGrid(grid_new, ncells)` prints the second component. -/
def runStdpar (n nsteps : ℕ) (alpha dt dx0 dx1 : ℚ) (expf : ℚ → ℚ)
    (gOld0 gNew0 : ℕ → ℚ) : (ℕ → ℚ) × (ℕ → ℚ) :=
  loopStdpar n alpha dt dx0 dx1 nsteps (heatInit n dx0 dx1 expf gOld0, gNew0)

/-- The iteration indices of one `fill2Dboundaries` pass:
`counting_iterator(ghost_cells)`, count `len - ghost_cells`. -/
def fillRange (len g : ℕ) : List ℕ := (List.range (len - g)).map (fun k => g + k)

/-- All flat indices stored to by `fill2Dboundaries`, in pass order: the
two stores of the row pass, then the two stores of the column pass. -/
def fillTargets (len g : ℕ) : List ℕ :=
  (fillRange len g).map (fun i => i) ++
    (fillRange len g).map (fun i => i + len * (len - g)) ++
      ((fillRange len g).map (fun j => j * len) ++
        (fillRange len g).map (fun j => (len - g) + len * j))

/-- How many times `fill2Dboundaries` stores to flat index `t`. -/
def fillWriteCount (len g t : ℕ) : ℕ := (fillTargets len g).count t

/-! ### Generic lemmas about single-store loops -/

theorem updFold_succ (f : ℕ → ℕ) (v : ℕ → ℚ) (m : ℕ) (g : ℕ → ℚ) :
    updFold f v (m + 1) g = Function.update (updFold f v m g) (f m) (v m) := by
  simp [updFold, List.range_succ]

theorem updFold_notin (f : ℕ → ℕ) (v : ℕ → ℚ) (m : ℕ) (g : ℕ → ℚ) (q : ℕ)
    (h : ∀ k, k < m → f k ≠ q) : updFold f v m g q = g q := by
  induction m with
  | zero => rfl
  | succ m ih =>
      rw [updFold_succ,
        Function.update_noteq (fun he => h m (Nat.lt_succ_self m) he.symm)]
      exact ih (fun k hk => h k (Nat.lt_succ_of_lt hk))

theorem updFold_hit (f : ℕ → ℕ) (v : ℕ → ℚ) (m : ℕ) (g : ℕ → ℚ) (k : ℕ)
    (hk : k < m) (huniq : ∀ k2, k2 < m → f k2 = f k → k2 = k) :
    updFold f v m g (f k) = v k := by
  induction m with
  | zero => omega
  | succ m ih =>
      rw [updFold_succ]
      by_cases hkm : k = m
      · subst hkm; rw [Function.update_same]
      · have hne : f k ≠ f m :=
          fun he => hkm ((huniq m (Nat.lt_succ_self m) he.symm).symm)
        rw [Function.update_noteq hne]
        exact ih (by omega) (fun k2 hk2 he => huniq k2 (Nat.lt_succ_of_lt hk2) he)

/-! ### Index arithmetic -/

theorem newIdx_eq (n p : ℕ) : newIdx n p = p := by
  unfold newIdx
  rw [Nat.add_sub_cancel_left, Nat.add_sub_cancel_left, Nat.mul_comm]
  exact Nat.div_add_mod p n

theorem mul_add_div_mod {n : ℕ} (hn : 0 < n) (a b : ℕ) (hb : b < n) :
    (a * n + b) / n = a ∧ (a * n + b) % n = b := by
  constructor
  · rw [Nat.mul_comm a n, Nat.mul_add_div hn, Nat.div_eq_of_lt hb, Nat.add_zero]
  · rw [Nat.mul_comm a n, Nat.mul_add_mod, Nat.mod_eq_of_lt hb]

theorem rowcol_unique {m r1 c1 r2 c2 : ℕ} (h1 : c1 < m) (h2 : c2 < m)
    (he : r1 * m + c1 = r2 * m + c2) : r1 = r2 ∧ c1 = c2 := by
  have hm : 0 < m := Nat.lt_of_le_of_lt (Nat.zero_le c1) h1
  have e1 := (mul_add_div_mod hm r1 c1 h1).1
  have e2 := (mul_add_div_mod hm r2 c2 h2).1
  rw [he] at e1
  have hr : r1 = r2 := e1.symm.trans e2
  refine ⟨hr, ?_⟩
  rw [hr] at he
  omega

theorem posTarget_inj {n p1 p2 : ℕ} (hn : 0 < n)
    (he : oldIdx n (1 + p1 / n) (1 + p1 % n) = oldIdx n (1 + p2 / n) (1 + p2 % n)) :
    p1 = p2 := by
  have h1 : 1 + p1 % n < n + 2 := by have := Nat.mod_lt p1 hn; omega
  have h2 : 1 + p2 % n < n + 2 := by have := Nat.mod_lt p2 hn; omega
  unfold oldIdx at he
  obtain ⟨hr, hc⟩ := rowcol_unique h1 h2 he
  have hdiv : p1 / n = p2 / n := by omega
  have hmod : p1 % n = p2 % n := by omega
  have d1 := Nat.div_add_mod p1 n
  have d2 := Nat.div_add_mod p2 n
  rw [hdiv, hmod] at d1
  rw [d2] at d1
  exact d1.symm

/-! ### Pointwise behaviour of the stencil and copy-back passes -/

theorem stencilRange_eq (n : ℕ) (alpha dt dx0 dx1 : ℚ) (old new : ℕ → ℚ)
    (start size : ℕ) :
    stencilRange n alpha dt dx0 dx1 old new start size
      = updFold (fun k => start + k)
          (fun k => stencilVal n alpha dt dx0 dx1 old (start + k)) size new := by
  simp [stencilRange, newIdx_eq]

theorem stencilRange_notin (n : ℕ) (alpha dt dx0 dx1 : ℚ) (old new : ℕ → ℚ)
    (start size q : ℕ) (h : ¬(start ≤ q ∧ q < start + size)) :
    stencilRange n alpha dt dx0 dx1 old new start size q = new q := by
  rw [stencilRange_eq]
  exact updFold_notin _ _ _ _ _ (fun k hk he => h (by omega))

theorem stencilRange_hit (n : ℕ) (alpha dt dx0 dx1 : ℚ) (old new : ℕ → ℚ)
    (start size q : ℕ) (h1 : start ≤ q) (h2 : q < start + size) :
    stencilRange n alpha dt dx0 dx1 old new start size q
      = stencilVal n alpha dt dx0 dx1 old q := by
  rw [stencilRange_eq]
  have h3 := updFold_hit (fun k => start + k)
    (fun k => stencilVal n alpha dt dx0 dx1 old (start + k)) size new
    (q - start) (by omega) (fun k2 hk2 he => by simp at he; omega)
  have h4 : start + (q - start) = q := by omega
  simpa [h4] using h3

theorem copyRange_notin (n : ℕ) (phiNew phiOld : ℕ → ℚ) (start size q : ℕ)
    (h : ∀ p, start ≤ p → p < start + size →
      oldIdx n (1 + p / n) (1 + p % n) ≠ q) :
    copyRange n phiNew phiOld start size q = phiOld q := by
  unfold copyRange
  exact updFold_notin _ _ _ _ _
    (fun k hk => h (start + k) (by omega) (by omega))

theorem copyRange_hit (n : ℕ) (phiNew phiOld : ℕ → ℚ) (start size p : ℕ)
    (hn : 0 < n) (h1 : start ≤ p) (h2 : p < start + size) :
    copyRange n phiNew phiOld start size (oldIdx n (1 + p / n) (1 + p % n))
      = phiNew p := by
  unfold copyRange
  have h3 := updFold_hit
    (fun k => oldIdx n (1 + (start + k) / n) (1 + (start + k) % n))
    (fun k => phiNew (newIdx n (start + k))) size phiOld
    (p - start) (by omega)
    (fun k2 hk2 he => by
      have := posTarget_inj hn he
      omega)
  have h4 : start + (p - start) = p := by omega
  simpa [h4, newIdx_eq] using h3

/-! ### The tiled dispatch, pointwise -/

theorem stencilTiled_eq_over (n T : ℕ) (alpha dt dx0 dx1 : ℚ) (old new : ℕ → ℚ) :
    stencilTiled n T alpha dt dx0 dx1 old new
      = stencilOver n alpha dt dx0 dx1 old (partitionTiles (n * n) T) new := by
  simp [stencilTiled, stencilOver, partitionTiles, List.foldl_map]

theorem copyTiled_eq_over (n T : ℕ) (phiNew phiOld : ℕ → ℚ) :
    copyTiled n T phiNew phiOld
      = copyOver n phiNew (partitionTiles (n * n) T) phiOld := by
  simp [copyTiled, copyOver, partitionTiles, List.foldl_map]

theorem stencilOver_cons (n : ℕ) (alpha dt dx0 dx1 : ℚ) (old : ℕ → ℚ)
    (ts : ℕ × ℕ) (rest : List (ℕ × ℕ)) (new : ℕ → ℚ) :
    stencilOver n alpha dt dx0 dx1 old (ts :: rest) new
      = stencilOver n alpha dt dx0 dx1 old rest
          (stencilRange n alpha dt dx0 dx1 old new ts.1 ts.2) := rfl

theorem copyOver_cons (n : ℕ) (phiNew : ℕ → ℚ) (ts : ℕ × ℕ)
    (rest : List (ℕ × ℕ)) (phiOld : ℕ → ℚ) :
    copyOver n phiNew (ts :: rest) phiOld
      = copyOver n phiNew rest (copyRange n phiNew phiOld ts.1 ts.2) := rfl

theorem stencilOver_notin (n : ℕ) (alpha dt dx0 dx1 : ℚ) (old : ℕ → ℚ)
    (tiles : List (ℕ × ℕ)) (new : ℕ → ℚ) (q : ℕ)
    (h : ∀ ts ∈ tiles, ¬(ts.1 ≤ q ∧ q < ts.1 + ts.2)) :
    stencilOver n alpha dt dx0 dx1 old tiles new q = new q := by
  induction tiles generalizing new with
  | nil => rfl
  | cons ts rest ih =>
      rw [stencilOver_cons,
        ih _ (fun ts2 h2 => h ts2 (List.mem_cons_of_mem _ h2))]
      exact stencilRange_notin n alpha dt dx0 dx1 old new ts.1 ts.2 q
        (h ts (List.mem_cons_self ts rest))

theorem stencilOver_hit (n : ℕ) (alpha dt dx0 dx1 : ℚ) (old : ℕ → ℚ)
    (tiles : List (ℕ × ℕ)) (new : ℕ → ℚ) (q : ℕ)
    (h : ∃ ts ∈ tiles, ts.1 ≤ q ∧ q < ts.1 + ts.2) :
    stencilOver n alpha dt dx0 dx1 old tiles new q
      = stencilVal n alpha dt dx0 dx1 old q := by
  induction tiles generalizing new with
  | nil => simp at h
  | cons ts rest ih =>
      rw [stencilOver_cons]
      by_cases hrest : ∃ ts2 ∈ rest, ts2.1 ≤ q ∧ q < ts2.1 + ts2.2
      · exact ih _ hrest
      · obtain ⟨ts0, hmem, hcov⟩ := h
        rcases List.mem_cons.mp hmem with h0 | h0
        · subst h0
          rw [stencilOver_notin n alpha dt dx0 dx1 old rest _ q
            (fun ts2 h2 hc => hrest ⟨ts2, h2, hc⟩)]
          exact stencilRange_hit n alpha dt dx0 dx1 old new ts0.1 ts0.2 q
            hcov.1 hcov.2
        · exact absurd ⟨ts0, h0, hcov⟩ hrest

theorem copyOver_notin (n : ℕ) (phiNew : ℕ → ℚ) (tiles : List (ℕ × ℕ))
    (phiOld : ℕ → ℚ) (q : ℕ)
    (h : ∀ ts ∈ tiles, ∀ p, ts.1 ≤ p → p < ts.1 + ts.2 →
      oldIdx n (1 + p / n) (1 + p % n) ≠ q) :
    copyOver n phiNew tiles phiOld q = phiOld q := by
  induction tiles generalizing phiOld with
  | nil => rfl
  | cons ts rest ih =>
      rw [copyOver_cons,
        ih _ (fun ts2 h2 => h ts2 (List.mem_cons_of_mem _ h2))]
      exact copyRange_notin n phiNew phiOld ts.1 ts.2 q
        (h ts (List.mem_cons_self ts rest))

theorem copyOver_hit (n : ℕ) (phiNew : ℕ → ℚ) (tiles : List (ℕ × ℕ))
    (phiOld : ℕ → ℚ) (p : ℕ) (hn : 0 < n)
    (h : ∃ ts ∈ tiles, ts.1 ≤ p ∧ p < ts.1 + ts.2) :
    copyOver n phiNew tiles phiOld (oldIdx n (1 + p / n) (1 + p % n))
      = phiNew p := by
  induction tiles generalizing phiOld with
  | nil => simp at h
  | cons ts rest ih =>
      rw [copyOver_cons]
      by_cases hrest : ∃ ts2 ∈ rest, ts2.1 ≤ p ∧ p < ts2.1 + ts2.2
      · exact ih _ hrest
      · obtain ⟨ts0, hmem, hcov⟩ := h
        rcases List.mem_cons.mp hmem with h0 | h0
        · subst h0
          rw [copyOver_notin n phiNew rest _ _
            (fun ts2 h2 p2 hp1 hp2 he => by
              have := posTarget_inj hn he
              exact hrest ⟨ts2, h2, by omega⟩)]
          exact copyRange_hit n phiNew phiOld ts0.1 ts0.2 p hn hcov.1 hcov.2
        · exact absurd ⟨ts0, h0, hcov⟩ hrest

/-! ### Exact coverage of the partition in the code when the remainder is at most 1 -/

theorem tileStart_eq_of_rem_le_one {N T t : ℕ} (hT : 0 < T) (ht : t < T)
    (hr : N % T ≤ 1) : tileStart N T t = t * (N / T) := by
  have hd := Nat.div_add_mod N T
  have htr : t * (N % T) < T := by
    have h5 : t * (N % T) ≤ t * 1 := Nat.mul_le_mul_left t hr
    omega
  unfold tileStart
  have he : t * N = T * (t * (N / T)) + t * (N % T) := by
    calc t * N = t * (T * (N / T) + N % T) := by rw [hd]
    _ = T * (t * (N / T)) + t * (N % T) := by ring
  rw [he, Nat.mul_add_div hT, Nat.div_eq_of_lt htr, Nat.add_zero]

theorem covered_iff {N T q : ℕ} (h1 : 1 ≤ T) (h2 : T ≤ N) (h3 : N % T ≤ 1) :
    (∃ t, t < T ∧ tileStart N T t ≤ q ∧
        q < tileStart N T t + tileSize N T t) ↔ q < N := by
  have hT : 0 < T := h1
  have hb : 0 < N / T := (Nat.one_le_div_iff hT).mpr h2
  have hd := Nat.div_add_mod N T
  constructor
  · rintro ⟨t, ht, _, hlt⟩
    rw [tileStart_eq_of_rem_le_one hT ht h3] at hlt
    unfold tileSize at hlt
    by_cases hteq : t = T - 1
    · subst hteq
      rw [if_pos rfl] at hlt
      have h5 : (T - 1) * (N / T) + N / T = T * (N / T) := by
        have h6 : T - 1 + 1 = T := by omega
        calc (T - 1) * (N / T) + N / T = (T - 1 + 1) * (N / T) := by ring
        _ = T * (N / T) := by rw [h6]
      linarith
    · rw [if_neg hteq] at hlt
      have h5 : t * (N / T) + N / T = (t + 1) * (N / T) := by ring
      have h6 : (t + 1) * (N / T) ≤ T * (N / T) :=
        Nat.mul_le_mul_right _ (by omega)
      have h7 : 0 ≤ N % T := Nat.zero_le _
      linarith
  · intro hq
    by_cases hc : q < (T - 1) * (N / T)
    · have hlt2 : q / (N / T) < T - 1 := (Nat.div_lt_iff_lt_mul hb).mpr hc
      refine ⟨q / (N / T), by omega, ?_, ?_⟩
      · rw [tileStart_eq_of_rem_le_one hT (by omega) h3]
        exact Nat.div_mul_le_self q (N / T)
      · rw [tileStart_eq_of_rem_le_one hT (by omega) h3]
        unfold tileSize
        have hne : q / (N / T) ≠ T - 1 := by omega
        rw [if_neg hne]
        have e1 := Nat.div_add_mod q (N / T)
        have e2 := Nat.mod_lt q hb
        have e3 : q / (N / T) * (N / T) = (N / T) * (q / (N / T)) :=
          Nat.mul_comm _ _
        linarith
    · refine ⟨T - 1, by omega, ?_, ?_⟩
      · rw [tileStart_eq_of_rem_le_one hT (by omega) h3]
        exact Nat.le_of_not_lt hc
      · rw [tileStart_eq_of_rem_le_one hT (by omega) h3]
        unfold tileSize
        rw [if_pos rfl]
        have h5 : (T - 1) * (N / T) + N / T = T * (N / T) := by
          have h6 : T - 1 + 1 = T := by omega
          calc (T - 1) * (N / T) + N / T = (T - 1 + 1) * (N / T) := by ring
          _ = T * (N / T) := by rw [h6]
        linarith

theorem coveredTiles_of_lt {N T q : ℕ} (h1 : 1 ≤ T) (h2 : T ≤ N)
    (h3 : N % T ≤ 1) (hq : q < N) :
    ∃ ts ∈ partitionTiles N T, ts.1 ≤ q ∧ q < ts.1 + ts.2 := by
  obtain ⟨t, ht, hc⟩ := (covered_iff h1 h2 h3).mpr hq
  exact ⟨(tileStart N T t, tileSize N T t),
    List.mem_map.mpr ⟨t, List.mem_range.mpr ht, rfl⟩, hc⟩

theorem notCoveredTiles_of_ge {N T q : ℕ} (h1 : 1 ≤ T) (h2 : T ≤ N)
    (h3 : N % T ≤ 1) (hq : ¬ q < N) :
    ∀ ts ∈ partitionTiles N T, ¬(ts.1 ≤ q ∧ q < ts.1 + ts.2) := by
  intro ts hmem hc
  obtain ⟨t, htr, he⟩ := List.mem_map.mp hmem
  have ht := List.mem_range.mp htr
  subst he
  exact hq ((covered_iff h1 h2 h3).mp ⟨t, ht, hc⟩)

/-! ### Tiled phases agree with the single-tile phases when the remainder
is at most 1 -/

theorem stencilTiled_eq_seq (n T : ℕ) (alpha dt dx0 dx1 : ℚ)
    (old new : ℕ → ℚ) (h1 : 1 ≤ T) (h2 : T ≤ n * n) (h3 : n * n % T ≤ 1) :
    stencilTiled n T alpha dt dx0 dx1 old new
      = stencilTiled n 1 alpha dt dx0 dx1 old new := by
  have h2a : 1 ≤ n * n := Nat.le_trans h1 h2
  have h3a : n * n % 1 ≤ 1 := by omega
  funext q
  rw [stencilTiled_eq_over, stencilTiled_eq_over]
  by_cases hq : q < n * n
  · rw [stencilOver_hit n alpha dt dx0 dx1 old _ new q
        (coveredTiles_of_lt h1 h2 h3 hq),
      stencilOver_hit n alpha dt dx0 dx1 old _ new q
        (coveredTiles_of_lt (Nat.le_refl 1) h2a h3a hq)]
  · rw [stencilOver_notin n alpha dt dx0 dx1 old _ new q
        (notCoveredTiles_of_ge h1 h2 h3 hq),
      stencilOver_notin n alpha dt dx0 dx1 old _ new q
        (notCoveredTiles_of_ge (Nat.le_refl 1) h2a h3a hq)]

theorem copyTiled_eq_seq (n T : ℕ) (phiNew phiOld : ℕ → ℚ)
    (h1 : 1 ≤ T) (h2 : T ≤ n * n) (h3 : n * n % T ≤ 1) :
    copyTiled n T phiNew phiOld = copyTiled n 1 phiNew phiOld := by
  have h2a : 1 ≤ n * n := Nat.le_trans h1 h2
  have h3a : n * n % 1 ≤ 1 := by omega
  have hn : 0 < n := by
    by_contra hc
    have : n = 0 := by omega
    subst this
    simp at h2a
  funext q
  rw [copyTiled_eq_over, copyTiled_eq_over]
  by_cases hex : ∃ p, p < n * n ∧ oldIdx n (1 + p / n) (1 + p % n) = q
  · obtain ⟨p, hp, he⟩ := hex
    subst he
    rw [copyOver_hit n phiNew _ phiOld p hn (coveredTiles_of_lt h1 h2 h3 hp),
      copyOver_hit n phiNew _ phiOld p hn
        (coveredTiles_of_lt (Nat.le_refl 1) h2a h3a hp)]
  · have hno : ∀ T2, 1 ≤ T2 → T2 ≤ n * n → n * n % T2 ≤ 1 →
        ∀ ts ∈ partitionTiles (n * n) T2, ∀ p, ts.1 ≤ p → p < ts.1 + ts.2 →
          oldIdx n (1 + p / n) (1 + p % n) ≠ q := by
      intro T2 g1 g2 g3 ts hmem p hp1 hp2 he
      obtain ⟨t, htr, hts⟩ := List.mem_map.mp hmem
      have ht := List.mem_range.mp htr
      subst hts
      have hpN : p < n * n := (covered_iff g1 g2 g3).mp ⟨t, ht, hp1, hp2⟩
      exact hex ⟨p, hpN, he⟩
    rw [copyOver_notin n phiNew _ phiOld q (hno T h1 h2 h3),
      copyOver_notin n phiNew _ phiOld q (hno 1 (Nat.le_refl 1) h2a h3a)]

theorem stepTiled_eq_seq (n T : ℕ) (alpha dt dx0 dx1 : ℚ)
    (h1 : 1 ≤ T) (h2 : T ≤ n * n) (h3 : n * n % T ≤ 1)
    (s : (ℕ → ℚ) × (ℕ → ℚ)) :
    stepTiled n T alpha dt dx0 dx1 s = stepTiled n 1 alpha dt dx0 dx1 s := by
  show (copyTiled n T
      (stencilTiled n T alpha dt dx0 dx1 (fill2Dboundaries (n + 2) 1 s.1) s.2)
      (fill2Dboundaries (n + 2) 1 s.1),
    stencilTiled n T alpha dt dx0 dx1 (fill2Dboundaries (n + 2) 1 s.1) s.2)
    = (copyTiled n 1
      (stencilTiled n 1 alpha dt dx0 dx1 (fill2Dboundaries (n + 2) 1 s.1) s.2)
      (fill2Dboundaries (n + 2) 1 s.1),
    stencilTiled n 1 alpha dt dx0 dx1 (fill2Dboundaries (n + 2) 1 s.1) s.2)
  rw [stencilTiled_eq_seq n T alpha dt dx0 dx1 _ _ h1 h2 h3,
    copyTiled_eq_seq n T _ _ h1 h2 h3]

theorem evolve_eq_seq (n T : ℕ) (alpha dt dx0 dx1 : ℚ)
    (h1 : 1 ≤ T) (h2 : T ≤ n * n) (h3 : n * n % T ≤ 1) :
    ∀ nsteps s, evolve n T alpha dt dx0 dx1 nsteps s
      = evolve n 1 alpha dt dx0 dx1 nsteps s := by
  intro nsteps
  induction nsteps with
  | zero => intro s; rfl
  | succ k ih =>
      intro s
      show evolve n T alpha dt dx0 dx1 k (stepTiled n T alpha dt dx0 dx1 s)
        = evolve n 1 alpha dt dx0 dx1 k (stepTiled n 1 alpha dt dx0 dx1 s)
      rw [stepTiled_eq_seq n T alpha dt dx0 dx1 h1 h2 h3 s, ih]

/-! ### The boundary fill: which cells it stores to -/

theorem fillPass1_succ (len g m : ℕ) (grid : ℕ → ℚ) :
    fillPass1 len g (m + 1) grid
      = fillBody1 len g (fillPass1 len g m grid) m := by
  simp [fillPass1, List.range_succ]

theorem fillPass2_succ (len g m : ℕ) (grid : ℕ → ℚ) :
    fillPass2 len g (m + 1) grid
      = fillBody2 len g (fillPass2 len g m grid) m := by
  simp [fillPass2, List.range_succ]

theorem fillOmp_succ (len g m : ℕ) (grid : ℕ → ℚ) :
    (List.range (m + 1)).foldl (fillBodyOmp len g) grid
      = fillBodyOmp len g ((List.range m).foldl (fillBodyOmp len g) grid) m := by
  simp [List.range_succ]

theorem fillBody1_notin (len g : ℕ) (acc : ℕ → ℚ) (k q : ℕ)
    (h1 : g + k ≠ q) (h2 : g + k + len * (len - g) ≠ q) :
    fillBody1 len g acc k q = acc q := by
  simp only [fillBody1]
  rw [Function.update_noteq (Ne.symm h2), Function.update_noteq (Ne.symm h1)]

theorem fillBody2_notin (len g : ℕ) (acc : ℕ → ℚ) (k q : ℕ)
    (h1 : (g + k) * len ≠ q) (h2 : len - g + len * (g + k) ≠ q) :
    fillBody2 len g acc k q = acc q := by
  simp only [fillBody2]
  rw [Function.update_noteq (Ne.symm h2), Function.update_noteq (Ne.symm h1)]

theorem fillBodyOmp_notin (len g : ℕ) (acc : ℕ → ℚ) (k q : ℕ)
    (h1 : g + k ≠ q) (h2 : g + k + len * (len - g) ≠ q)
    (h3 : (g + k) * len ≠ q) (h4 : len - g + len * (g + k) ≠ q) :
    fillBodyOmp len g acc k q = acc q := by
  simp only [fillBodyOmp]
  rw [Function.update_noteq (Ne.symm h4), Function.update_noteq (Ne.symm h3),
    Function.update_noteq (Ne.symm h2), Function.update_noteq (Ne.symm h1)]

theorem fillPass1_notin (len g m : ℕ) (grid : ℕ → ℚ) (q : ℕ)
    (h : ∀ k, k < m → g + k ≠ q ∧ g + k + len * (len - g) ≠ q) :
    fillPass1 len g m grid q = grid q := by
  induction m with
  | zero => rfl
  | succ m ih =>
      rw [fillPass1_succ,
        fillBody1_notin len g _ m q (h m (Nat.lt_succ_self m)).1
          (h m (Nat.lt_succ_self m)).2]
      exact ih (fun k hk => h k (Nat.lt_succ_of_lt hk))

theorem fillPass2_notin (len g m : ℕ) (grid : ℕ → ℚ) (q : ℕ)
    (h : ∀ k, k < m → (g + k) * len ≠ q ∧ len - g + len * (g + k) ≠ q) :
    fillPass2 len g m grid q = grid q := by
  induction m with
  | zero => rfl
  | succ m ih =>
      rw [fillPass2_succ,
        fillBody2_notin len g _ m q (h m (Nat.lt_succ_self m)).1
          (h m (Nat.lt_succ_self m)).2]
      exact ih (fun k hk => h k (Nat.lt_succ_of_lt hk))

theorem fillOmp_notin (len g m : ℕ) (grid : ℕ → ℚ) (q : ℕ)
    (h : ∀ k, k < m → g + k ≠ q ∧ g + k + len * (len - g) ≠ q ∧
      (g + k) * len ≠ q ∧ len - g + len * (g + k) ≠ q) :
    (List.range m).foldl (fillBodyOmp len g) grid q = grid q := by
  induction m with
  | zero => rfl
  | succ m ih =>
      obtain ⟨e1, e2, e3, e4⟩ := h m (Nat.lt_succ_self m)
      rw [fillOmp_succ, fillBodyOmp_notin len g _ m q e1 e2 e3 e4]
      exact ih (fun k hk => h k (Nat.lt_succ_of_lt hk))

/-- With `ghost_cells = 1`, none of the four store targets of an iteration
`k < len - 1` hits an interior cell `(r, c)` (`1 ≤ r, c ≤ len - 2`). -/
theorem interior_ne_targets {len r c k : ℕ} (hr1 : 1 ≤ r) (hr2 : r ≤ len - 2)
    (hc1 : 1 ≤ c) (hc2 : c ≤ len - 2) (hk : k < len - 1) :
    1 + k ≠ r * len + c ∧ 1 + k + len * (len - 1) ≠ r * len + c ∧
      (1 + k) * len ≠ r * len + c ∧ len - 1 + len * (1 + k) ≠ r * len + c := by
  have hlen : 3 ≤ len := by omega
  obtain ⟨L, rfl⟩ : ∃ L, len = L + 3 := ⟨len - 3, by omega⟩
  have s1 : L + 3 - 1 = L + 2 := by omega
  have s2 : L + 3 - 2 = L + 1 := by omega
  rw [s1] at hk ⊢
  rw [s2] at hr2 hc2
  have eb1 : L + 3 ≤ r * (L + 3) := Nat.le_mul_of_pos_left _ hr1
  have eb2 : r * (L + 3) ≤ (L + 1) * (L + 3) := Nat.mul_le_mul_right _ hr2
  have eb3 : (L + 1) * (L + 3) = L * L + 4 * L + 3 := by ring
  have eb4 : (L + 3) * (L + 2) = L * L + 5 * L + 6 := by ring
  refine ⟨?_, ?_, ?_, ?_⟩
  · intro he; linarith
  · intro he; linarith
  · intro he
    have m1 : (1 + k) * (L + 3) % (L + 3) = 0 := Nat.mul_mod_left _ _
    have m2 : (r * (L + 3) + c) % (L + 3) = c := by
      rw [Nat.mul_comm, Nat.mul_add_mod, Nat.mod_eq_of_lt (by omega)]
    rw [he] at m1
    have := m1.symm.trans m2
    omega
  · intro he
    have m1 : (L + 2 + (L + 3) * (1 + k)) % (L + 3) = L + 2 := by
      rw [Nat.add_mul_mod_self_left, Nat.mod_eq_of_lt (by omega)]
    have m2 : (r * (L + 3) + c) % (L + 3) = c := by
      rw [Nat.mul_comm, Nat.mul_add_mod, Nat.mod_eq_of_lt (by omega)]
    rw [he] at m1
    have := m1.symm.trans m2
    omega

/-- With `ghost_cells = 1`, all four store targets of an iteration
`k < len - 1` lie inside the `len × len` buffer. -/
theorem fill_targets_bound {len k : ℕ} (hlen : 3 ≤ len) (hk : k < len - 1) :
    1 + k < len * len ∧ 1 + k + len * (len - 1) < len * len ∧
      (1 + k) * len < len * len ∧ len - 1 + len * (1 + k) < len * len := by
  obtain ⟨L, rfl⟩ : ∃ L, len = L + 3 := ⟨len - 3, by omega⟩
  have s1 : L + 3 - 1 = L + 2 := by omega
  rw [s1] at hk ⊢
  have e1 : (L + 3) * (L + 2) = L * L + 5 * L + 6 := by ring
  have e2 : (L + 3) * (L + 3) = L * L + 6 * L + 9 := by ring
  have e3 : (1 + k) * (L + 3) ≤ (L + 2) * (L + 3) :=
    Nat.mul_le_mul_right _ (by omega)
  have e4 : (L + 2) * (L + 3) = L * L + 5 * L + 6 := by ring
  have e5 : (L + 3) * (1 + k) ≤ (L + 3) * (L + 2) :=
    Nat.mul_le_mul_left _ (by omega)
  have e0 : 0 ≤ L * L := Nat.zero_le _
  refine ⟨by linarith, by linarith, by linarith, by linarith⟩

theorem fill_interior_unchanged (len : ℕ) (grid : ℕ → ℚ) (r c : ℕ)
    (hr1 : 1 ≤ r) (hr2 : r ≤ len - 2) (hc1 : 1 ≤ c) (hc2 : c ≤ len - 2) :
    fill2Dboundaries len 1 grid (r * len + c) = grid (r * len + c) := by
  unfold fill2Dboundaries
  rw [fillPass2_notin len 1 (len - 1) _ _ (fun k hk => by
      obtain ⟨_, _, e3, e4⟩ := interior_ne_targets hr1 hr2 hc1 hc2 hk
      exact ⟨e3, e4⟩),
    fillPass1_notin len 1 (len - 1) _ _ (fun k hk => by
      obtain ⟨e1, e2, _, _⟩ := interior_ne_targets hr1 hr2 hc1 hc2 hk
      exact ⟨e1, e2⟩)]

theorem fillOmp_interior_unchanged (len : ℕ) (grid : ℕ → ℚ) (r c : ℕ)
    (hr1 : 1 ≤ r) (hr2 : r ≤ len - 2) (hc1 : 1 ≤ c) (hc2 : c ≤ len - 2) :
    fill2Dboundaries_omp len 1 grid (r * len + c) = grid (r * len + c) := by
  unfold fill2Dboundaries_omp
  exact fillOmp_notin len 1 (len - 1 - 1) grid _ (fun k hk =>
    interior_ne_targets hr1 hr2 hc1 hc2 (by omega))

theorem fill_outside_unchanged (len : ℕ) (grid : ℕ → ℚ) (q : ℕ)
    (hlen : 3 ≤ len) (hq : len * len ≤ q) :
    fill2Dboundaries len 1 grid q = grid q := by
  unfold fill2Dboundaries
  rw [fillPass2_notin len 1 (len - 1) _ _ (fun k hk => by
      obtain ⟨_, _, e3, e4⟩ := fill_targets_bound hlen hk
      exact ⟨Nat.ne_of_lt (lt_of_lt_of_le e3 hq),
        Nat.ne_of_lt (lt_of_lt_of_le e4 hq)⟩),
    fillPass1_notin len 1 (len - 1) _ _ (fun k hk => by
      obtain ⟨e1, e2, _, _⟩ := fill_targets_bound hlen hk
      exact ⟨Nat.ne_of_lt (lt_of_lt_of_le e1 hq),
        Nat.ne_of_lt (lt_of_lt_of_le e2 hq)⟩)]

theorem fillOmp_outside_unchanged (len : ℕ) (grid : ℕ → ℚ) (q : ℕ)
    (hlen : 3 ≤ len) (hq : len * len ≤ q) :
    fill2Dboundaries_omp len 1 grid q = grid q := by
  unfold fill2Dboundaries_omp
  exact fillOmp_notin len 1 (len - 1 - 1) grid _ (fun k hk => by
    have hk2 : k < len - 1 := by omega
    obtain ⟨e1, e2, e3, e4⟩ := fill_targets_bound hlen hk2
    exact ⟨Nat.ne_of_lt (lt_of_lt_of_le e1 hq),
      Nat.ne_of_lt (lt_of_lt_of_le e2 hq),
      Nat.ne_of_lt (lt_of_lt_of_le e3 hq),
      Nat.ne_of_lt (lt_of_lt_of_le e4 hq)⟩)

/-! ### The initialization phase, pointwise -/

theorem heatInit_ghost (n : ℕ) (dx0 dx1 : ℚ) (expf : ℚ → ℚ) (g0 : ℕ → ℚ)
    (i j : ℕ) (hi : i ≤ n + 1) (hj : j ≤ n + 1)
    (hg : i = 0 ∨ i = n + 1 ∨ j = 0 ∨ j = n + 1) :
    heatInit n dx0 dx1 expf g0 (oldIdx n i j) = g0 (oldIdx n i j) := by
  unfold heatInit
  apply updFold_notin
  intro p hp he
  have hn : 0 < n := by
    rcases Nat.eq_zero_or_pos n with h0 | h0
    · subst h0; simp at hp
    · exact h0
  have hm : 1 + p % n < n + 2 := by have := Nat.mod_lt p hn; omega
  have hj2 : j < n + 2 := by omega
  obtain ⟨hr, hc⟩ := rowcol_unique hm hj2 (by simpa [oldIdx] using he)
  have hdlt : p / n < n := (Nat.div_lt_iff_lt_mul hn).mpr hp
  have hmlt : p % n < n := Nat.mod_lt p hn
  have hi1 : 1 ≤ i := by rw [← hr]; exact Nat.le_add_right 1 _
  have hi2 : i ≤ n := by
    rw [← hr, Nat.add_comm]
    exact Nat.succ_le_of_lt hdlt
  have hj1 : 1 ≤ j := by rw [← hc]; exact Nat.le_add_right 1 _
  have hj3 : j ≤ n := by
    rw [← hc, Nat.add_comm]
    exact Nat.succ_le_of_lt hmlt
  omega

theorem heatInit_interior (n : ℕ) (dx0 dx1 : ℚ) (expf : ℚ → ℚ) (g0 : ℕ → ℚ)
    (i j : ℕ) (hi1 : 1 ≤ i) (hi2 : i ≤ n) (hj1 : 1 ≤ j) (hj2 : j ≤ n) :
    heatInit n dx0 dx1 expf g0 (oldIdx n i j)
      = 1 + expf (-(((-(1 / 2) + dx0 * ((i : ℚ) - 1)) *
            (-(1 / 2) + dx0 * ((i : ℚ) - 1)) +
          (-(1 / 2) + dx1 * ((j : ℚ) - 1)) *
            (-(1 / 2) + dx1 * ((j : ℚ) - 1))) / (1 / 100))) := by
  have hn : 0 < n := by omega
  have hdm := mul_add_div_mod hn (i - 1) (j - 1) (by omega)
  have htgt : oldIdx n i j
      = oldIdx n (1 + ((i - 1) * n + (j - 1)) / n)
          (1 + ((i - 1) * n + (j - 1)) % n) := by
    rw [hdm.1, hdm.2]
    congr 1 <;> omega
  have hpn : (i - 1) * n + (j - 1) < n * n := by
    have h5 : ((i - 1) * n + (j - 1)) / n < n := by rw [hdm.1]; omega
    exact (Nat.div_lt_iff_lt_mul hn).mp h5
  rw [htgt]
  unfold heatInit
  have h6 := updFold_hit (fun p => oldIdx n (1 + p / n) (1 + p % n))
    (initVal n dx0 dx1 expf) (n * n) g0 ((i - 1) * n + (j - 1)) hpn
    (fun k2 hk2 he => posTarget_inj hn he)
  simp only at h6
  rw [h6]
  simp only [initVal]
  rw [hdm.1, hdm.2]
  have e1 : 1 + (i - 1) = i := by omega
  have e2 : 1 + (j - 1) = j := by omega
  rw [e1, e2]

/-! ### The untiled stencil pass, pointwise -/

theorem stencilFull_value (n : ℕ) (alpha dt dx0 dx1 : ℚ) (old new : ℕ → ℚ)
    (i j : ℕ) (hi1 : 1 ≤ i) (hi2 : i ≤ n) (hj1 : 1 ≤ j) (hj2 : j ≤ n) :
    stencilFull n alpha dt dx0 dx1 old new ((i - 1) * n + (j - 1))
      = old (oldIdx n i j) +
          alpha * dt *
            ((old (oldIdx n (i + 1) j) - 2 * old (oldIdx n i j) +
                old (oldIdx n (i - 1) j)) / (dx0 * dx0) +
              (old (oldIdx n i (j + 1)) - 2 * old (oldIdx n i j) +
                old (oldIdx n i (j - 1))) / (dx1 * dx1)) := by
  have hn : 0 < n := by omega
  have hdm := mul_add_div_mod hn (i - 1) (j - 1) (by omega)
  have hpn : (i - 1) * n + (j - 1) < n * n := by
    have h5 : ((i - 1) * n + (j - 1)) / n < n := by rw [hdm.1]; omega
    exact (Nat.div_lt_iff_lt_mul hn).mp h5
  unfold stencilFull
  rw [stencilRange_hit n alpha dt dx0 dx1 old new 0 (n * n) _ (Nat.zero_le _)
    (by omega)]
  simp only [stencilVal]
  rw [hdm.1, hdm.2]
  have e1 : 1 + (i - 1) = i := by omega
  have e2 : 1 + (j - 1) = j := by omega
  rw [e1, e2]

/-! ### The zero-step run -/

theorem runStdpar_zero (n : ℕ) (alpha dt dx0 dx1 : ℚ) (expf : ℚ → ℚ)
    (gOld0 gNew0 : ℕ → ℚ) :
    runStdpar n 0 alpha dt dx0 dx1 expf gOld0 gNew0
      = (heatInit n dx0 dx1 expf gOld0, gNew0) := rfl

/-! ### Counting the boundary-fill stores -/

theorem mem_fillRange {len i : ℕ} : i ∈ fillRange len 1 ↔ 1 ≤ i ∧ i < len := by
  simp only [fillRange, List.mem_map, List.mem_range]
  constructor
  · rintro ⟨k, hk, rfl⟩
    omega
  · intro h
    exact ⟨i - 1, by omega, by omega⟩

theorem nodup_fillRange (len : ℕ) : (fillRange len 1).Nodup :=
  List.Nodup.map (fun a b h => by omega) (List.nodup_range _)

theorem count_map_fill_one {len : ℕ} (f : ℕ → ℕ) (hf : Function.Injective f)
    {i : ℕ} (hi : i ∈ fillRange len 1) :
    ((fillRange len 1).map f).count (f i) = 1 :=
  List.count_eq_one_of_mem (List.Nodup.map hf (nodup_fillRange len))
    (List.mem_map.mpr ⟨i, hi, rfl⟩)

theorem count_map_fill_zero {len t : ℕ} (f : ℕ → ℕ)
    (h : ∀ i ∈ fillRange len 1, f i ≠ t) :
    ((fillRange len 1).map f).count t = 0 :=
  List.count_eq_zero.mpr (fun hmem => by
    obtain ⟨i, hi, he⟩ := List.mem_map.mp hmem
    exact h i hi he)

theorem fillWriteCount_eq (len g t : ℕ) :
    fillWriteCount len g t
      = ((fillRange len g).map (fun i => i)).count t
        + ((fillRange len g).map (fun i => i + len * (len - g))).count t
        + ((fillRange len g).map (fun j => j * len)).count t
        + ((fillRange len g).map (fun j => (len - g) + len * j)).count t := by
  unfold fillWriteCount fillTargets
  rw [List.count_append, List.count_append, List.count_append]
  omega

/-- Corner `(0, 0)` (flat index `0`) is never stored to by the fill. -/
theorem fillWriteCount_corner00 {len : ℕ} (hlen : 3 ≤ len) :
    fillWriteCount len 1 0 = 0 := by
  obtain ⟨L, rfl⟩ : ∃ L, len = L + 3 := ⟨len - 3, by omega⟩
  rw [fillWriteCount_eq]
  have s1 : L + 3 - 1 = L + 2 := by omega
  rw [s1]
  have hP : 0 ≤ (L + 3) * (L + 2) := Nat.zero_le _
  rw [count_map_fill_zero _ (fun i hi => by
      have := mem_fillRange.mp hi
      omega),
    count_map_fill_zero _ (fun i hi he => by
      have h1 := mem_fillRange.mp hi
      linarith),
    count_map_fill_zero _ (fun i hi he => by
      have h1 := mem_fillRange.mp hi
      have h2 : 1 * (L + 3) ≤ i * (L + 3) := Nat.mul_le_mul_right _ h1.1
      linarith),
    count_map_fill_zero _ (fun i hi he => by
      have h2 : 0 ≤ (L + 3) * i := Nat.zero_le _
      linarith)]

/-- Corner `(0, len-1)` (flat index `len - 1`) is stored to exactly once
(by the row pass at iteration `len - 1`). -/
theorem fillWriteCount_cornerTR {len : ℕ} (hlen : 3 ≤ len) :
    fillWriteCount len 1 (len - 1) = 1 := by
  obtain ⟨L, rfl⟩ : ∃ L, len = L + 3 := ⟨len - 3, by omega⟩
  rw [fillWriteCount_eq]
  have s1 : L + 3 - 1 = L + 2 := by omega
  rw [s1]
  have c1 : ((fillRange (L + 3) 1).map (fun i => i)).count (L + 2) = 1 := by
    have := @count_map_fill_one (L + 3) (fun i => i)
      (fun a b h => h) (L + 2) (mem_fillRange.mpr ⟨by omega, by omega⟩)
    simpa using this
  rw [c1,
    count_map_fill_zero _ (fun i hi he => by
      have h1 := mem_fillRange.mp hi
      have h2 : L + 2 ≤ (L + 3) * (L + 2) :=
        Nat.le_mul_of_pos_left _ (by omega)
      linarith),
    count_map_fill_zero _ (fun i hi he => by
      have h1 := mem_fillRange.mp hi
      have h2 : 1 * (L + 3) ≤ i * (L + 3) := Nat.mul_le_mul_right _ h1.1
      linarith),
    count_map_fill_zero _ (fun i hi he => by
      have h1 := mem_fillRange.mp hi
      have h2 : (L + 3) * 1 ≤ (L + 3) * i := Nat.mul_le_mul_left _ h1.1
      linarith)]

/-- Corner `(len-1, 0)` (flat index `(len-1)*len`) is stored to exactly
once (by the column pass at iteration `len - 1`). -/
theorem fillWriteCount_cornerBL {len : ℕ} (hlen : 3 ≤ len) :
    fillWriteCount len 1 ((len - 1) * len) = 1 := by
  obtain ⟨L, rfl⟩ : ∃ L, len = L + 3 := ⟨len - 3, by omega⟩
  rw [fillWriteCount_eq]
  have s1 : L + 3 - 1 = L + 2 := by omega
  rw [s1]
  have e1 : (L + 2) * (L + 3) = L * L + 5 * L + 6 := by ring
  have e2 : (L + 3) * (L + 2) = L * L + 5 * L + 6 := by ring
  have c3 : ((fillRange (L + 3) 1).map (fun j => j * (L + 3))).count
      ((L + 2) * (L + 3)) = 1 := by
    have := @count_map_fill_one (L + 3) (fun j => j * (L + 3))
      (fun a b h => Nat.eq_of_mul_eq_mul_right (by omega) h)
      (L + 2) (mem_fillRange.mpr ⟨by omega, by omega⟩)
    simpa using this
  rw [c3,
    count_map_fill_zero _ (fun i hi he => by
      have h1 := mem_fillRange.mp hi
      have h0 : 0 ≤ L * L := Nat.zero_le _
      linarith),
    count_map_fill_zero _ (fun i hi he => by
      have h1 := mem_fillRange.mp hi
      have h0 : 0 ≤ L * L := Nat.zero_le _
      linarith),
    count_map_fill_zero _ (fun j hj he => by
      have h1 := mem_fillRange.mp hj
      by_cases hc : j ≤ L + 1
      · have h2 : (L + 3) * j ≤ (L + 3) * (L + 1) := Nat.mul_le_mul_left _ hc
        have e3 : (L + 3) * (L + 1) = L * L + 4 * L + 3 := by ring
        linarith
      · have hj2 : j = L + 2 := by omega
        subst hj2
        linarith)]

/-- Corner `(len-1, len-1)` (flat index `(len-1)*len + (len-1)`) is stored
to exactly twice: once by the row pass and once by the column pass, both at
iteration `len - 1`. -/
theorem fillWriteCount_cornerBR {len : ℕ} (hlen : 3 ≤ len) :
    fillWriteCount len 1 ((len - 1) * len + (len - 1)) = 2 := by
  obtain ⟨L, rfl⟩ : ∃ L, len = L + 3 := ⟨len - 3, by omega⟩
  rw [fillWriteCount_eq]
  have s1 : L + 3 - 1 = L + 2 := by omega
  rw [s1]
  have e1 : (L + 2) * (L + 3) = L * L + 5 * L + 6 := by ring
  have eq2 : (L + 2) + (L + 3) * (L + 2) = (L + 2) * (L + 3) + (L + 2) := by
    ring
  have c2 : ((fillRange (L + 3) 1).map (fun i => i + (L + 3) * (L + 2))).count
      ((L + 2) * (L + 3) + (L + 2)) = 1 := by
    have := @count_map_fill_one (L + 3)
      (fun i => i + (L + 3) * (L + 2))
      (fun a b h => Nat.add_right_cancel h)
      (L + 2) (mem_fillRange.mpr ⟨by omega, by omega⟩)
    rw [← eq2]
    simpa using this
  have c4 : ((fillRange (L + 3) 1).map (fun j => (L + 2) + (L + 3) * j)).count
      ((L + 2) * (L + 3) + (L + 2)) = 1 := by
    have := @count_map_fill_one (L + 3)
      (fun j => (L + 2) + (L + 3) * j)
      (fun a b h => by
        have h2 : (L + 3) * a = (L + 3) * b := Nat.add_left_cancel h
        exact Nat.eq_of_mul_eq_mul_left (by omega) h2)
      (L + 2) (mem_fillRange.mpr ⟨by omega, by omega⟩)
    rw [← eq2]
    simpa using this
  rw [c2, c4,
    count_map_fill_zero _ (fun i hi he => by
      have h1 := mem_fillRange.mp hi
      have h0 : 0 ≤ L * L := Nat.zero_le _
      linarith),
    count_map_fill_zero _ (fun j hj he => by
      have m1 : j * (L + 3) % (L + 3) = 0 := Nat.mul_mod_left j (L + 3)
      have m2 : ((L + 2) * (L + 3) + (L + 2)) % (L + 3) = L + 2 := by
        rw [Nat.mul_comm, Nat.mul_add_mod, Nat.mod_eq_of_lt (by omega)]
      rw [he] at m1
      have := m1.symm.trans m2
      omega)]

/-! ### Claim C1 -/

/-- C1: the claim asserts tile `t` starts at `t * (total / tile_count)` and
that the tiles are contiguous and cover `[0, total)` exactly.  Evaluating
the formulas of the code at `total = 9` (`ncells = 3`), `tile_count = 5`: the
start of tile 2 is `(2 * 9) / 5 = 3` while the claimed start is
`2 * (9 / 5) = 2`; position 2 lies in no tile (so the tiles are neither
contiguous nor a cover of `[0, 9)`); and the last tile ends at `12 > 9`,
overrunning the iteration space. -/
theorem c1_tilePartition_eval :
    tileStart 9 5 2 = 3 ∧ tileStartSpec 9 5 2 = 2 ∧
      (∀ t, t < 5 →
        ¬(tileStart 9 5 t ≤ 2 ∧ 2 < tileStart 9 5 t + tileSize 9 5 t)) ∧
      tileStart 9 5 4 + tileSize 9 5 4 = 12 := by decide

/-! ### Claim C2 -/

/-- C2: the claim asserts that after the fill each ghost edge equals the
adjacent interior row/column, independent of grid content.  At `len = 4`
(`ncells = 2`) with pairwise-distinct contents `g(q) = q`, the fill stores
the transposed value `old(1,2) = 6` into the left-ghost cell `(2,0)`
(flat index 8), while the adjacent interior cell `(2,1)` (flat index 9,
untouched by the fill) holds 9: the left ghost column does not equal the
first interior column. -/
theorem c2_fill_eval :
    fill2Dboundaries 4 1 (fun q => (q : ℚ)) 8 = 6 ∧
      fill2Dboundaries 4 1 (fun q => (q : ℚ)) 9 = 9 ∧ (6 : ℚ) ≠ 9 := by
  refine ⟨by decide, by decide, by norm_num⟩

/-! ### Claim C5 -/

/-- C5: the claim asserts the partition fails with `InvalidPartition` when
`tile_count > total`.  In fact no validation exists anywhere: at
`total = 4 < 5 = tile_count` the partition formulas complete normally and
produce these five tiles (four empty except one, the last covering
`[3, 7)`), with no error of any kind. -/
theorem c5_no_validation_eval :
    partitionTiles 4 5 = [(0, 0), (0, 0), (1, 0), (2, 0), (3, 4)] := by decide

/-- C5 (amended): the tile partition performs no validation and cannot
fail: for `tile_count > total > 0` it still produces `tile_count` tiles
from the same formulas, the first `tile_count - 1` of length 0 and the
last of length `total` (since `base = 0` and the remainder is `total`);
no `InvalidPartition` error exists in the code. -/
theorem c5_no_validation (total T : ℕ) (h1 : 0 < total) (h2 : total < T) :
    (∀ t, t < T - 1 → tileSize total T t = 0) ∧
      tileSize total T (T - 1) = total ∧
      (partitionTiles total T).length = T := by
  refine ⟨fun t ht => ?_, ?_, by simp [partitionTiles]⟩
  · unfold tileSize
    rw [if_neg (by omega), Nat.div_eq_of_lt h2]
  · unfold tileSize
    rw [if_pos rfl, Nat.div_eq_of_lt h2, Nat.mod_eq_of_lt h2, Nat.zero_add]

theorem c5_no_validation_witness :
    (0 < 4 ∧ 4 < 5) ∧
      ((∀ t, t < 5 - 1 → tileSize 4 5 t = 0) ∧ tileSize 4 5 (5 - 1) = 4 ∧
        (partitionTiles 4 5).length = 5) :=
  ⟨⟨by decide, by decide⟩, c5_no_validation 4 5 (by decide) (by decide)⟩

/-! ### Claim C6 -/

/-- C6: the claim asserts every one of the four corner ghost cells is
written exactly twice.  At `len = 4`, corner `(0,0)` (flat index 0) is
stored to zero times by the fill, not twice. -/
theorem c6_corner_counterexample :
    fillWriteCount 4 1 0 = 0 ∧ fillWriteCount 4 1 0 ≠ 2 := by decide

/-- C6 (amended): with `ghost_depth = 1` and haloed side `len ≥ 3`, corner
`(0,0)` is never written by the fill, corners `(0,len-1)` and `(len-1,0)`
are each written exactly once, and only corner `(len-1,len-1)` is written
twice, the second (column-pass) write winning — concretely, at `len = 4`
with contents `g(q) = q` the final corner value is `10 = g(2,2)`, the value
stored by the column pass. -/
theorem c6_corner_counts {len : ℕ} (hlen : 3 ≤ len) :
    fillWriteCount len 1 0 = 0 ∧ fillWriteCount len 1 (len - 1) = 1 ∧
      fillWriteCount len 1 ((len - 1) * len) = 1 ∧
      fillWriteCount len 1 ((len - 1) * len + (len - 1)) = 2 ∧
      fill2Dboundaries 4 1 (fun q => (q : ℚ)) 15 = 10 :=
  ⟨fillWriteCount_corner00 hlen, fillWriteCount_cornerTR hlen,
    fillWriteCount_cornerBL hlen, fillWriteCount_cornerBR hlen, by decide⟩

theorem c6_corner_counts_witness :
    3 ≤ 4 ∧
      (fillWriteCount 4 1 0 = 0 ∧ fillWriteCount 4 1 (4 - 1) = 1 ∧
        fillWriteCount 4 1 ((4 - 1) * 4) = 1 ∧
        fillWriteCount 4 1 ((4 - 1) * 4 + (4 - 1)) = 2 ∧
        fill2Dboundaries 4 1 (fun q => (q : ℚ)) 15 = 10) :=
  ⟨by decide, c6_corner_counts (by decide)⟩

/-! ### Claim C7 -/

/-- C7: the claim asserts an `nsteps = 0` run prints a final grid equal to
the initialized-and-boundary-filled initial grid.  With `ncells = 2`,
allocation contents 0 and the exponential modelled as the zero function:
the final printed buffer is `grid_new`, never written, so cell `(0,0)`
prints 0 — while the corresponding initialized interior cell `(1,1)` of
`grid_old` holds `1 + exp(…) = 1` (and the boundary fill never even ran,
being inside the step loop). -/
theorem c7_zero_steps_counterexample :
    (runStdpar 2 0 1 1 1 1 (fun _ => 0) (fun _ => 0) (fun _ => 0)).2 0 = 0 ∧
      fill2Dboundaries 4 1 (heatInit 2 1 1 (fun _ => 0) (fun _ => 0))
        (oldIdx 2 1 1) = 1 ∧ ((0 : ℚ) ≠ 1) := by
  refine ⟨rfl, ?_, by norm_num⟩
  norm_num [fill2Dboundaries, fillPass1, fillPass2, fillBody1, fillBody2,
    heatInit, updFold, initVal, oldIdx, List.range_succ, Function.update]

/-- C7 (amended): with `nsteps = 0` the step loop never runs: no boundary
fill, no stencil, no copy-back.  The final printed buffer (`grid_new`, the
second component) is exactly its allocation-time contents, and `grid_old`
is exactly the initialized buffer with no boundary fill applied. -/
theorem c7_zero_steps (n : ℕ) (alpha dt dx0 dx1 : ℚ) (expf : ℚ → ℚ)
    (gOld0 gNew0 : ℕ → ℚ) :
    (runStdpar n 0 alpha dt dx0 dx1 expf gOld0 gNew0).2 = gNew0 ∧
      (runStdpar n 0 alpha dt dx0 dx1 expf gOld0 gNew0).1
        = heatInit n dx0 dx1 expf gOld0 :=
  ⟨rfl, rfl⟩

/-! ### Claim C8 -/

/-- C8: the claim asserts both buffers are allocated zero-filled.  The
allocation is a raw `new[]`: with allocation-time contents 5, the halo
cell `(0,0)` of `grid_old` still holds `5 ≠ 0` after the initialization
phase (which writes only the interior). -/
theorem c8_alloc_counterexample :
    heatInit 2 1 1 (fun _ => 0) (fun _ => 5) (oldIdx 2 0 0) = 5 ∧
      ((5 : ℚ) ≠ 0) := by
  refine ⟨by decide, by norm_num⟩

/-- C8 (amended): allocation does not zero-fill and cannot report an
`AllocationError` (no such handling exists): every halo cell of `grid_old`
retains its allocation-time contents through the initialization phase, and
`grid_new` retains its allocation-time contents until the first stencil
step (with `nsteps = 0`, forever). -/
theorem c8_alloc_uninitialized (n : ℕ) (alpha dt dx0 dx1 : ℚ)
    (expf : ℚ → ℚ) (gOld0 gNew0 : ℕ → ℚ) (i j : ℕ)
    (hi : i ≤ n + 1) (hj : j ≤ n + 1)
    (hg : i = 0 ∨ i = n + 1 ∨ j = 0 ∨ j = n + 1) :
    heatInit n dx0 dx1 expf gOld0 (oldIdx n i j) = gOld0 (oldIdx n i j) ∧
      (runStdpar n 0 alpha dt dx0 dx1 expf gOld0 gNew0).2 = gNew0 :=
  ⟨heatInit_ghost n dx0 dx1 expf gOld0 i j hi hj hg, rfl⟩

theorem c8_alloc_uninitialized_witness :
    (0 ≤ 2 + 1 ∧ 0 ≤ 2 + 1 ∧
        ((0 : ℕ) = 0 ∨ 0 = 2 + 1 ∨ (0 : ℕ) = 0 ∨ 0 = 2 + 1)) ∧
      (heatInit 2 1 1 (fun _ => 0) (fun _ => 5) (oldIdx 2 0 0)
          = (fun _ => (5 : ℚ)) (oldIdx 2 0 0) ∧
        (runStdpar 2 0 1 1 1 1 (fun _ => 0) (fun _ => 5) (fun _ => 7)).2
          = fun _ => (7 : ℚ)) :=
  ⟨⟨by decide, by decide, Or.inl rfl⟩,
    c8_alloc_uninitialized 2 1 1 1 1 (fun _ => 0) (fun _ => 5) (fun _ => 7)
      0 0 (by decide) (by decide) (Or.inl rfl)⟩

/-! ### Claim C3 -/

/-- C3: the claim asserts the tiled stencil step equals the sequential
(`tile_count = 1`) step for every `T > 1`.  At `ncells = 3`
(`total = 9`), `T = 5`: the tiles computed by the code are `[0,1), [1,2), [3,4), [5,6),
[7,12)` — position 2 lies in no tile, so with `phi_old ≡ 1` and
`phi_new ≡ 0` the tiled step leaves cell 2 of the new buffer at 0 while
the sequential step writes 1 there. -/
theorem c3_tiled_counterexample :
    stencilTiled 3 5 1 1 (1 / 2) (1 / 2) (fun _ => 1) (fun _ => 0) 2 = 0 ∧
      stencilTiled 3 1 1 1 (1 / 2) (1 / 2) (fun _ => 1) (fun _ => 0) 2 = 1 ∧
      ((0 : ℚ) ≠ 1) := by
  refine ⟨by decide, ?_, by norm_num⟩
  norm_num [stencilTiled, stencilRange, updFold, stencilVal, newIdx, oldIdx,
    tileStart, tileSize, List.range_succ, Function.update]

/-- C3 (amended): the tiled stencil step — and the whole `nsteps`
simulation — equals the `tile_count = 1` run exactly when the partition
in the code covers the iteration space, i.e. whenever
`ncells² mod T ≤ 1` (with `1 ≤ T ≤ ncells²`).  This includes the
scenario named in the claim, `ncells = 64` with `ntiles ∈ {1, 4, 7}`, since
`4096 mod 4 = 0` and `4096 mod 7 = 1`; for `ncells² mod T ≥ 2` the tiling
leaves gaps and the buffers differ. -/
theorem c3_tiled_eq_seq (n T : ℕ) (alpha dt dx0 dx1 : ℚ)
    (h1 : 1 ≤ T) (h2 : T ≤ n * n) (h3 : n * n % T ≤ 1) :
    (∀ old new, stencilTiled n T alpha dt dx0 dx1 old new
        = stencilTiled n 1 alpha dt dx0 dx1 old new) ∧
      ∀ nsteps s, evolve n T alpha dt dx0 dx1 nsteps s
        = evolve n 1 alpha dt dx0 dx1 nsteps s :=
  ⟨fun old new => stencilTiled_eq_seq n T alpha dt dx0 dx1 old new h1 h2 h3,
    evolve_eq_seq n T alpha dt dx0 dx1 h1 h2 h3⟩

theorem c3_tiled_eq_seq_witness :
    (1 ≤ 7 ∧ 7 ≤ 64 * 64 ∧ 64 * 64 % 7 ≤ 1) ∧
      ((∀ old new, stencilTiled 64 7 (1 / 2) (1 / 100000) (1 / 63) (1 / 63)
            old new
          = stencilTiled 64 1 (1 / 2) (1 / 100000) (1 / 63) (1 / 63)
            old new) ∧
        ∀ nsteps s, evolve 64 7 (1 / 2) (1 / 100000) (1 / 63) (1 / 63)
            nsteps s
          = evolve 64 1 (1 / 2) (1 / 100000) (1 / 63) (1 / 63) nsteps s) :=
  ⟨⟨by decide, by decide, by decide⟩,
    c3_tiled_eq_seq 64 7 (1 / 2) (1 / 100000) (1 / 63) (1 / 63)
      (by decide) (by decide) (by decide)⟩

/-! ### Claim C4 -/

/-- C4: for every interior cell `(i, j)` (1-indexed into the haloed
buffer), the stencil pass writes at `new(i-1, j-1)` exactly the Jacobi
value, its result at that cell depends only on the five stencil points of
`old`, and the iteration for that position stores to no other cell. -/
theorem c4_stencil (n : ℕ) (alpha dt dx0 dx1 : ℚ) (old new : ℕ → ℚ)
    (i j : ℕ) (hi1 : 1 ≤ i) (hi2 : i ≤ n) (hj1 : 1 ≤ j) (hj2 : j ≤ n) :
    stencilFull n alpha dt dx0 dx1 old new ((i - 1) * n + (j - 1))
      = old (oldIdx n i j) +
          alpha * dt *
            ((old (oldIdx n (i + 1) j) - 2 * old (oldIdx n i j) +
                old (oldIdx n (i - 1) j)) / (dx0 * dx0) +
              (old (oldIdx n i (j + 1)) - 2 * old (oldIdx n i j) +
                old (oldIdx n i (j - 1))) / (dx1 * dx1)) ∧
    (∀ old2 : ℕ → ℚ,
        old2 (oldIdx n i j) = old (oldIdx n i j) →
        old2 (oldIdx n (i + 1) j) = old (oldIdx n (i + 1) j) →
        old2 (oldIdx n (i - 1) j) = old (oldIdx n (i - 1) j) →
        old2 (oldIdx n i (j + 1)) = old (oldIdx n i (j + 1)) →
        old2 (oldIdx n i (j - 1)) = old (oldIdx n i (j - 1)) →
        stencilFull n alpha dt dx0 dx1 old2 new ((i - 1) * n + (j - 1))
          = stencilFull n alpha dt dx0 dx1 old new ((i - 1) * n + (j - 1))) ∧
    (∀ acc : ℕ → ℚ, ∀ q, q ≠ (i - 1) * n + (j - 1) →
        Function.update acc (newIdx n ((i - 1) * n + (j - 1)))
          (stencilVal n alpha dt dx0 dx1 old ((i - 1) * n + (j - 1))) q
          = acc q) := by
  refine ⟨stencilFull_value n alpha dt dx0 dx1 old new i j hi1 hi2 hj1 hj2,
    fun old2 e1 e2 e3 e4 e5 => ?_, fun acc q hq => ?_⟩
  · rw [stencilFull_value n alpha dt dx0 dx1 old2 new i j hi1 hi2 hj1 hj2,
      stencilFull_value n alpha dt dx0 dx1 old new i j hi1 hi2 hj1 hj2,
      e1, e2, e3, e4, e5]
  · rw [newIdx_eq]
    exact Function.update_noteq hq _ _

theorem c4_stencil_witness :
    ((1 : ℕ) ≤ 1 ∧ (1 : ℕ) ≤ 1 ∧ (1 : ℕ) ≤ 1 ∧ (1 : ℕ) ≤ 1) ∧
      (stencilFull 1 1 1 1 1 (fun _ => 0) (fun _ => 0) ((1 - 1) * 1 + (1 - 1))
          = 0 + 1 * 1 * ((0 - 2 * 0 + 0) / (1 * 1) + (0 - 2 * 0 + 0) / (1 * 1)) ∧
        (∀ old2 : ℕ → ℚ,
            old2 (oldIdx 1 1 1) = 0 →
            old2 (oldIdx 1 (1 + 1) 1) = 0 →
            old2 (oldIdx 1 (1 - 1) 1) = 0 →
            old2 (oldIdx 1 1 (1 + 1)) = 0 →
            old2 (oldIdx 1 1 (1 - 1)) = 0 →
            stencilFull 1 1 1 1 1 old2 (fun _ => 0) ((1 - 1) * 1 + (1 - 1))
              = stencilFull 1 1 1 1 1 (fun _ => 0) (fun _ => 0)
                  ((1 - 1) * 1 + (1 - 1))) ∧
        (∀ acc : ℕ → ℚ, ∀ q, q ≠ (1 - 1) * 1 + (1 - 1) →
            Function.update acc (newIdx 1 ((1 - 1) * 1 + (1 - 1)))
              (stencilVal 1 1 1 1 1 (fun _ => 0) ((1 - 1) * 1 + (1 - 1))) q
              = acc q)) :=
  ⟨⟨by decide, by decide, by decide, by decide⟩,
    c4_stencil 1 1 1 1 1 (fun _ => 0) (fun _ => 0) 1 1
      (by decide) (by decide) (by decide) (by decide)⟩

/-! ### Claim C9 -/

/-- C9: the claim asserts the fill reads only interior cells.  Two grids
that agree on every interior cell of the `len = 4` buffer (flat indices 5,
6, 9, 10) but differ at the ghost cell `(1,3)` (flat 7) produce different
fill results at the written frame cell `(0,3)` (flat 3): the row pass at
`i = 3` reads that ghost cell. -/
theorem c9_ghost_read_counterexample :
    (fun q => (q : ℚ)) 5 = Function.update (fun q => (q : ℚ)) 7 99 5 ∧
      (fun q => (q : ℚ)) 6 = Function.update (fun q => (q : ℚ)) 7 99 6 ∧
      (fun q => (q : ℚ)) 9 = Function.update (fun q => (q : ℚ)) 7 99 9 ∧
      (fun q => (q : ℚ)) 10 = Function.update (fun q => (q : ℚ)) 7 99 10 ∧
      fill2Dboundaries 4 1 (fun q => (q : ℚ)) 3 = 7 ∧
      fill2Dboundaries 4 1 (Function.update (fun q => (q : ℚ)) 7 99) 3 = 99 ∧
      ((7 : ℚ) ≠ 99) := by
  refine ⟨by decide, by decide, by decide, by decide, by decide, by decide,
    by norm_num⟩

/-- C9 (amended): both boundary fills store only to the ghost frame: every
interior cell and every index beyond the buffer is left unchanged.  The
fill does not, however, read only interior cells: its output at a written
frame cell can depend on prior ghost-cell contents, as the concrete
`len = 4` pair shows (two grids agreeing on the whole interior, with fill
results 7 and 99 at flat cell 3). -/
theorem c9_frame_effect (len : ℕ) (grid : ℕ → ℚ) (r c q : ℕ)
    (hlen : 3 ≤ len) (hr1 : 1 ≤ r) (hr2 : r ≤ len - 2) (hc1 : 1 ≤ c)
    (hc2 : c ≤ len - 2) (hq : len * len ≤ q) :
    (fill2Dboundaries len 1 grid (r * len + c) = grid (r * len + c) ∧
      fill2Dboundaries_omp len 1 grid (r * len + c) = grid (r * len + c)) ∧
    (fill2Dboundaries len 1 grid q = grid q ∧
      fill2Dboundaries_omp len 1 grid q = grid q) ∧
    (fill2Dboundaries 4 1 (fun q2 => (q2 : ℚ)) 3 = 7 ∧
      fill2Dboundaries 4 1 (Function.update (fun q2 => (q2 : ℚ)) 7 99) 3
        = 99) :=
  ⟨⟨fill_interior_unchanged len grid r c hr1 hr2 hc1 hc2,
      fillOmp_interior_unchanged len grid r c hr1 hr2 hc1 hc2⟩,
    ⟨fill_outside_unchanged len grid q hlen hq,
      fillOmp_outside_unchanged len grid q hlen hq⟩,
    by decide, by decide⟩

theorem c9_frame_effect_witness :
    (3 ≤ 4 ∧ (1 : ℕ) ≤ 1 ∧ 1 ≤ 4 - 2 ∧ (1 : ℕ) ≤ 1 ∧ 1 ≤ 4 - 2 ∧
        4 * 4 ≤ 16) ∧
      ((fill2Dboundaries 4 1 (fun _ => 0) (1 * 4 + 1) = 0 ∧
          fill2Dboundaries_omp 4 1 (fun _ => 0) (1 * 4 + 1) = 0) ∧
        (fill2Dboundaries 4 1 (fun _ => 0) 16 = 0 ∧
          fill2Dboundaries_omp 4 1 (fun _ => 0) 16 = 0) ∧
        (fill2Dboundaries 4 1 (fun q2 => (q2 : ℚ)) 3 = 7 ∧
          fill2Dboundaries 4 1 (Function.update (fun q2 => (q2 : ℚ)) 7 99) 3
            = 99)) :=
  ⟨⟨by decide, by decide, by decide, by decide, by decide, by decide⟩,
    c9_frame_effect 4 (fun _ => 0) 1 1 16 (by decide) (by decide) (by decide)
      (by decide) (by decide) (by decide)⟩

/-! ### Claim C10 -/

/-- C10: the initialization phase writes `phi_old` exactly at the interior
cells `(i, j)` with `1 ≤ i, j ≤ ncells`, setting each to
`1 + exp(-(x² + y²)/0.01)` for the cell-center coordinates
`x = -0.5 + dx·(i-1)`, `y = -0.5 + dx·(j-1)`, and never writes a ghost
cell: the halo retains its prior (allocation-time) contents. -/
theorem c10_init (n : ℕ) (dx0 dx1 : ℚ) (expf : ℚ → ℚ) (g0 : ℕ → ℚ)
    (i j : ℕ) (hi : i ≤ n + 1) (hj : j ≤ n + 1) :
    ((i = 0 ∨ i = n + 1 ∨ j = 0 ∨ j = n + 1) →
        heatInit n dx0 dx1 expf g0 (oldIdx n i j) = g0 (oldIdx n i j)) ∧
      (1 ≤ i → i ≤ n → 1 ≤ j → j ≤ n →
        heatInit n dx0 dx1 expf g0 (oldIdx n i j)
          = 1 + expf (-(((-(1 / 2) + dx0 * ((i : ℚ) - 1)) *
                (-(1 / 2) + dx0 * ((i : ℚ) - 1)) +
              (-(1 / 2) + dx1 * ((j : ℚ) - 1)) *
                (-(1 / 2) + dx1 * ((j : ℚ) - 1))) / (1 / 100)))) :=
  ⟨fun hg => heatInit_ghost n dx0 dx1 expf g0 i j hi hj hg,
    fun a b c d => heatInit_interior n dx0 dx1 expf g0 i j a b c d⟩

theorem c10_init_witness :
    (1 ≤ 1 + 1 ∧ 1 ≤ 1 + 1) ∧
      ((((1 : ℕ) = 0 ∨ (1 : ℕ) = 1 + 1 ∨ (1 : ℕ) = 0 ∨ (1 : ℕ) = 1 + 1) →
          heatInit 1 1 1 (fun _ => 0) (fun _ => 0) (oldIdx 1 1 1)
            = (fun _ => (0 : ℚ)) (oldIdx 1 1 1)) ∧
        ((1 : ℕ) ≤ 1 → (1 : ℕ) ≤ 1 → (1 : ℕ) ≤ 1 → (1 : ℕ) ≤ 1 →
          heatInit 1 1 1 (fun _ => 0) (fun _ => 0) (oldIdx 1 1 1)
            = 1 + 0)) :=
  ⟨⟨by decide, by decide⟩,
    c10_init 1 1 1 (fun _ => 0) (fun _ => 0) 1 1 (by decide) (by decide)⟩

end HeatEq
